import Mathlib

/-!
# Verification of the Image-Compressor app (jelly-cookie/Image-Compressor)

Shallow embedding of the two source variants of `App.js` (the richer variant,
called `Part000` here, and the simpler `src/App.js` variant, called `AppJs`).

Files are modelled as records carrying the metadata the code reads
(`name`, `size`, pixel `width`/`height`) plus an abstract `content` tag that
stands in for the byte payload: two files are byte-identical exactly when the
records are equal.  JavaScript numeric expressions over sizes are modelled in
`ℚ`; `Number.prototype.toFixed(d)` is modelled as rounding to `d` decimal
places (half away from zero on the non-negative values that occur here).

The third-party `browser-image-compression` library is not part of this
repository's sources; it is modelled as an abstract re-encode oracle
(`reencode`), with the `skipCompression` option honoured as the spec
describes (pass the file through unchanged).
-/

/-- A selected file, as the code observes it: name, byte size, decoded pixel
dimensions, and an abstract content tag standing in for the byte payload. -/
structure JFile where
  name : List Char
  size : ℕ
  content : ℕ
  width : ℕ
  height : ℕ
  deriving DecidableEq, Repr

/-- The options object built at lines 115–126 of the richer variant:
`maxSizeMB`, `maxWidthOrHeight`, `useWebWorker`, `initialQuality`,
`alwaysKeepResolution`, `preserveExif`, `skipCompression`. -/
structure Options where
  maxSizeMB : ℚ
  maxWidthOrHeight : ℕ
  useWebWorker : Bool
  initialQuality : ℚ
  alwaysKeepResolution : Bool
  preserveExif : Bool
  skipCompression : Bool
  deriving DecidableEq, Repr

/-- `x.toFixed(d)` modelled as a rational: round `x` to `d` decimal places. -/
def toFixed (d : ℕ) (x : ℚ) : ℚ :=
  (round (x * 10 ^ d) : ℚ) / 10 ^ d

/-- `file.size / (1024 * 1024)` — the original size in megabytes. -/
def originalSizeMB (file : JFile) : ℚ :=
  (file.size : ℚ) / (1024 * 1024)

/-- Lines 98–126 of the richer variant: derive the options object from the
file and the current compression value (strength).
`targetSizeMB = Math.max(0.3, originalSizeMB * (1 - compressionValue / 100))`,
`maxWidthOrHeight` tiered at 4000 / 2000 / own max dimension,
`skipCompression` when the file is under 100KB. -/
def deriveOptions (compressionValue : ℕ) (file : JFile) : Options :=
  let targetSizeMB : ℚ := max (3 / 10) (originalSizeMB file * (1 - (compressionValue : ℚ) / 100))
  let maxDimension := max file.width file.height
  let maxWidthOrHeight :=
    if maxDimension > 4000 then 4000
    else if maxDimension > 2000 then 2000
    else maxDimension
  { maxSizeMB := targetSizeMB
    maxWidthOrHeight := maxWidthOrHeight
    useWebWorker := true
    initialQuality := 9 / 10
    alwaysKeepResolution := true
    preserveExif := true
    skipCompression := decide (file.size < 100 * 1024) }

/-- Modelled from the spec: the third-party `imageCompression` routine of
`browser-image-compression` is not in this repository's sources.  Per the
spec's skip-path ("skip compression entirely and pass the file through
unchanged"), when `skipCompression` is set the input file is returned as-is;
otherwise the abstract re-encode oracle runs and may fail (`none` models a
rejected promise). -/
def imageCompression (reencode : JFile → Options → Option JFile)
    (file : JFile) (options : Options) : Option JFile :=
  if options.skipCompression then some file else reencode file options

/-- The per-result stats record (line 146–150), with `toFixed` outputs kept
as rationals. -/
structure Stats where
  originalSize : ℚ
  compressedSize : ℚ
  compressionRatio : ℚ
  deriving DecidableEq, Repr

/-- One element of the `compressedUrls` result list (lines 142–151); the
display URL is the object URL of the result file, minted by an abstract
`mkUrl`. -/
structure ResultEntry where
  url : ℕ
  file : JFile
  originalName : List Char
  stats : Stats
  deriving DecidableEq, Repr

/-- Lines 96–152 of the richer variant: the per-file async pipeline.
Derives options, invokes the (abstract) compression library, substitutes the
original file when the re-encoded output is strictly larger, and computes the
stats.  `none` models a rejected per-file promise. -/
def compressOneFile (reencode : JFile → Options → Option JFile) (mkUrl : JFile → ℕ)
    (compressionValue : ℕ) (file : JFile) : Option ResultEntry :=
  let options := deriveOptions compressionValue file
  (imageCompression reencode file options).map fun compressed =>
    let compressedFile := if compressed.size > file.size then file else compressed
    let compressionRatio :=
      toFixed 1 (((file.size : ℚ) - (compressedFile.size : ℚ)) / (file.size : ℚ) * 100)
    let origSize := toFixed 2 ((file.size : ℚ) / (1024 * 1024))
    let compSize := toFixed 2 ((compressedFile.size : ℚ) / (1024 * 1024))
    { url := mkUrl compressedFile
      file := compressedFile
      originalName := file.name
      stats :=
        { originalSize := origSize
          compressedSize := compSize
          compressionRatio := compressionRatio } }

/-! ## The simpler variant (`src/App.js`) -/

namespace AppJs

/-- The options object of the simpler variant (lines 97–102 of `src/App.js`):
`maxSizeMB`, `useWebWorker`, `maxWidthOrHeight`, `quality`. -/
structure Options where
  maxSizeMB : ℚ
  useWebWorker : Bool
  maxWidthOrHeight : ℕ
  quality : ℚ
  deriving DecidableEq, Repr

/-- Lines 97–102 of `src/App.js`: derive options from the file and the
current compression value.
`maxSizeMB = Math.max(1, file.size / (1024 * 1024) * (1 - compressionValue / 100))`. -/
def deriveOptions (compressionValue : ℕ) (file : JFile) : Options :=
  { maxSizeMB := max 1 ((file.size : ℚ) / (1024 * 1024) * (1 - (compressionValue : ℚ) / 100))
    useWebWorker := true
    maxWidthOrHeight := 1920
    quality := (100 - (compressionValue : ℚ)) / 100 }

end AppJs

/-! ## `Promise.all` and the batch

Each per-file promise is a task `Option ResultEntry` (`none` = rejection).
`Promise.all` is modelled explicitly against an arbitrary completion order:
completed tasks arrive as `(index, outcome)` pairs in some order, and the
joined result is assembled by index, so the output ordering is positional and
independent of the completion interleaving. -/

/-- The stream of task completions under a given completion `order` of
indices: task `i` completes with outcome `tasks[i]` (an out-of-range index
completes with a rejection). -/
def completions {R : Type} (order : List ℕ) (tasks : List (Option R)) :
    List (ℕ × Option R) :=
  order.map fun i => (i, tasks.getD i none)

/-- The outcome collected for index `i` from the completion stream: the first
completion reported for `i`, or a rejection if `i` never completed. -/
def collectAt {R : Type} (order : List ℕ) (tasks : List (Option R)) (i : ℕ) :
    Option R :=
  ((completions order tasks).lookup i).getD none

/-- Join a list of task outcomes: `some` of all values when every task
succeeded, `none` as soon as any task was rejected. -/
def seqOption {R : Type} : List (Option R) → Option (List R)
  | [] => some []
  | none :: _ => none
  | some r :: rest => (seqOption rest).map (r :: ·)

/-- `Promise.all(tasks)` observed under completion order `order`: collect the
outcome of every index in input order and join them. -/
def promiseAll {R : Type} (order : List ℕ) (tasks : List (Option R)) :
    Option (List R) :=
  seqOption ((List.range tasks.length).map (collectAt order tasks))

/-! ## Application state and handlers (richer variant, lines 60–171) -/

/-- The component state: `selectedFiles`, `previewUrls`, `compressedUrls`,
`compressionValue`, `isCompressing`, `selectedChip` (lines 61–66), plus a
count of `console.error` calls standing in for the error log. -/
structure AppState where
  selectedFiles : List JFile
  previewUrls : List ℕ
  compressedUrls : List ResultEntry
  compressionValue : ℕ
  isCompressing : Bool
  selectedChip : Option ℕ
  errorLog : ℕ
  deriving DecidableEq, Repr

/-- The initial state (lines 61–66): empty lists, compression value 10,
not compressing, no chip selected. -/
def initialState : AppState :=
  { selectedFiles := []
    previewUrls := []
    compressedUrls := []
    compressionValue := 10
    isCompressing := false
    selectedChip := none
    errorLog := 0 }

/-- Lines 82–89, `handleFileSelect`: on a non-empty list, replace the
selection, mint one preview object URL per file, and clear the results; on an
empty list, do nothing. -/
def handleFileSelect (mkUrl : JFile → ℕ) (files : List JFile) (s : AppState) :
    AppState :=
  if files.length > 0 then
    { s with
      selectedFiles := files
      previewUrls := files.map mkUrl
      compressedUrls := [] }
  else s

/-- Lines 163–166, `handleChipClick`: select the chip and adopt its value. -/
def handleChipClick (value : ℕ) (s : AppState) : AppState :=
  { s with selectedChip := some value, compressionValue := value }

/-- Lines 168–171, `handleSliderChange`: adopt the slider value and clear the
chip selection. -/
def handleSliderChange (newValue : ℕ) (s : AppState) : AppState :=
  { s with compressionValue := newValue, selectedChip := none }

/-- The render predicate of lines 219–220: chip `value` shows as active iff
`selectedChip === option.value`. -/
def chipActive (s : AppState) (value : ℕ) : Prop :=
  s.selectedChip = some value

/-- The moment inside `handleCompress` after `setIsCompressing(true)` while
the batch is still awaited (display shows the spinner, results untouched). -/
def startCompress (s : AppState) : AppState :=
  if s.selectedFiles.length = 0 then s else { s with isCompressing := true }

/-- Lines 91–161, `handleCompress`, observed under completion order `order`:
early-return on an empty selection; otherwise run all per-file pipelines with
the current compression value, join with `Promise.all`, and either publish
the whole batch at once or log one error and keep the results untouched; the
`finally` clause clears `isCompressing` either way. -/
def handleCompress (reencode : JFile → Options → Option JFile) (mkUrl : JFile → ℕ)
    (order : List ℕ) (s : AppState) : AppState :=
  if s.selectedFiles.length = 0 then s
  else
    let tasks := s.selectedFiles.map (compressOneFile reencode mkUrl s.compressionValue)
    match promiseAll order tasks with
    | some results =>
        { s with compressedUrls := results, isCompressing := false }
    | none =>
        { s with errorLog := s.errorLog + 1, isCompressing := false }

/-- The states the component can reach: the initial state, followed by any
interleaving of file selections, chip clicks, slider changes, and compression
runs observed either mid-flight (`pending`) or at settlement under an
arbitrary completion order. -/
inductive Reachable (reencode : JFile → Options → Option JFile)
    (mkUrl : JFile → ℕ) : AppState → Prop
  | init : Reachable reencode mkUrl initialState
  | fileSelect (files : List JFile) (s : AppState) :
      Reachable reencode mkUrl s →
      Reachable reencode mkUrl (handleFileSelect mkUrl files s)
  | chipClick (v : ℕ) (s : AppState) :
      Reachable reencode mkUrl s →
      Reachable reencode mkUrl (handleChipClick v s)
  | sliderChange (v : ℕ) (s : AppState) :
      Reachable reencode mkUrl s →
      Reachable reencode mkUrl (handleSliderChange v s)
  | compressPending (s : AppState) :
      Reachable reencode mkUrl s →
      Reachable reencode mkUrl (startCompress s)
  | compressSettle (order : List ℕ) (s : AppState) :
      Reachable reencode mkUrl s →
      Reachable reencode mkUrl (handleCompress reencode mkUrl order s)

/-! ## Download file name (line 277 of the richer variant, line 223 of
`src/App.js`)

`file.name.replace(/\.[^/.]+$/, '')` strips a final dot-extension (a last dot
followed by one or more characters none of which is a dot or a slash);
`file.name.split('.').pop()` is the segment after the last dot (the whole
name when there is no dot). -/

/-- `name.split('.').pop()`: the suffix of `name` after its last `'.'`, or
all of `name` when it has no dot. -/
def lastDotSegment (name : List Char) : List Char :=
  (name.reverse.takeWhile fun c => c != '.').reverse

/-- `name.replace(/\.[^/.]+$/, '')`: drop a trailing `.ext` where `ext` is a
non-empty run of characters other than `'.'` and `'/'`; otherwise keep the
name unchanged. -/
def stripExtRegex (name : List Char) : List Char :=
  let seg := name.reverse.takeWhile fun c => c != '.' && c != '/'
  if seg.length ≠ 0 ∧ (name.reverse.drop seg.length).head? = some '.' then
    (name.reverse.drop (seg.length + 1)).reverse
  else name

/-- The `download` attribute at line 277:
`` `${name.replace(...)}_jelly_image_compress.${name.split('.').pop()}` ``. -/
def downloadName (name : List Char) : List Char :=
  stripExtRegex name ++ "_jelly_image_compress.".toList ++ lastDotSegment name

/-! ## Spec-side definitions (written from the spec's words, for refinement
comparisons against the code-side definitions above) -/

/-- Spec formula for the target size:
`max(floor_size, originalSizeMB * (1 - strength/100))`. -/
def specTargetSize (floorSize origMB : ℚ) (strength : ℕ) : ℚ :=
  max floorSize (origMB * (1 - (strength : ℚ) / 100))

/-- Spec tiering for the target max dimension: 4000 when the larger axis
exceeds 4000, else 2000 when it exceeds 2000, else the axis itself. -/
def specTargetDimension (d : ℕ) : ℕ :=
  if d > 4000 then 4000 else if d > 2000 then 2000 else d

/-! ## Supporting lemmas -/

theorem round_mono_of_le {x y : ℚ} (h : x ≤ y) : round x ≤ round y := by
  rw [round_eq, round_eq]
  exact Int.floor_le_floor (by linarith)

theorem toFixed_mono {d : ℕ} {x y : ℚ} (h : x ≤ y) : toFixed d x ≤ toFixed d y := by
  unfold toFixed
  have hp : (0 : ℚ) < 10 ^ d := by positivity
  have hr : round (x * 10 ^ d) ≤ round (y * 10 ^ d) :=
    round_mono_of_le (mul_le_mul_of_nonneg_right h hp.le)
  gcongr

/-- Rounding to `d` decimals moves the value by at most `1 / (2 * 10^d)`. -/
theorem abs_toFixed_sub_le (d : ℕ) (x : ℚ) :
    |toFixed d x - x| ≤ 1 / (2 * 10 ^ d) := by
  unfold toFixed
  have hp : (0 : ℚ) < 10 ^ d := by positivity
  have h := abs_sub_round (x * 10 ^ d)
  rw [abs_sub_comm] at h
  have hrw : (round (x * 10 ^ d) : ℚ) / 10 ^ d - x
      = ((round (x * 10 ^ d) : ℚ) - x * 10 ^ d) / 10 ^ d := by
    field_simp
    ring
  rw [hrw, abs_div, abs_of_pos hp, div_le_div_iff₀ hp (by positivity)]
  nlinarith [abs_nonneg ((round (x * 10 ^ d) : ℚ) - x * 10 ^ d)]

/-! ## Claim theorems -/

/-- C2: for every file and every strength in `[1, 99]`, the derived target
maximum size equals `max(floor_size, originalSizeMB * (1 - strength/100))`,
with `floor_size = 0.3` MB in the richer variant and `1` MB in the
`src/App.js` variant. -/
theorem targetSize_matches_spec (file : JFile) (strength : ℕ)
    (h1 : 1 ≤ strength) (h99 : strength ≤ 99) :
    (deriveOptions strength file).maxSizeMB
        = specTargetSize (3 / 10) (originalSizeMB file) strength
      ∧ (AppJs.deriveOptions strength file).maxSizeMB
        = specTargetSize 1 (originalSizeMB file) strength := by
  constructor <;> rfl

theorem targetSize_matches_spec_witness :
    (1 ≤ 20 ∧ 20 ≤ 99)
      ∧ ((deriveOptions 20 ⟨[], 2097152, 0, 800, 600⟩).maxSizeMB
          = specTargetSize (3 / 10) (originalSizeMB ⟨[], 2097152, 0, 800, 600⟩) 20
        ∧ (AppJs.deriveOptions 20 ⟨[], 2097152, 0, 800, 600⟩).maxSizeMB
          = specTargetSize 1 (originalSizeMB ⟨[], 2097152, 0, 800, 600⟩) 20) :=
  ⟨⟨by decide, by decide⟩,
    targetSize_matches_spec ⟨[], 2097152, 0, 800, 600⟩ 20 (by decide) (by decide)⟩

/-- C4: the derived target max dimension follows the 4000 / 2000 / own-axis
tiering of the spec, and in particular never exceeds the image's own larger
axis when that axis is at most 2000. -/
theorem targetDimension_matches_spec (strength : ℕ) (file : JFile) :
    (deriveOptions strength file).maxWidthOrHeight
        = specTargetDimension (max file.width file.height)
      ∧ (max file.width file.height ≤ 2000 →
          (deriveOptions strength file).maxWidthOrHeight
            ≤ max file.width file.height) := by
  refine ⟨rfl, fun h => ?_⟩
  have heq : (deriveOptions strength file).maxWidthOrHeight
      = specTargetDimension (max file.width file.height) := rfl
  rw [heq]
  unfold specTargetDimension
  split_ifs <;> omega

theorem targetDimension_matches_spec_witness :
    (deriveOptions 10 ⟨[], 500000, 0, 1500, 900⟩).maxWidthOrHeight
        = specTargetDimension (max 1500 900)
      ∧ (deriveOptions 10 ⟨[], 500000, 0, 1500, 900⟩).maxWidthOrHeight
          ≤ max 1500 900 :=
  ⟨(targetDimension_matches_spec 10 ⟨[], 500000, 0, 1500, 900⟩).1,
    (targetDimension_matches_spec 10 ⟨[], 500000, 0, 1500, 900⟩).2 (by decide)⟩

/-- C8: clicking a preset chip sets the compression value to exactly the
chip's value and makes that chip, and only that chip, render as active; a
subsequent slider change adopts the slider value and deactivates every chip. -/
theorem chip_and_slider_semantics (v n : ℕ) (s : AppState) :
    (handleChipClick v s).compressionValue = v
      ∧ (∀ w, chipActive (handleChipClick v s) w ↔ w = v)
      ∧ (handleSliderChange n (handleChipClick v s)).compressionValue = n
      ∧ (handleSliderChange n (handleChipClick v s)).selectedChip = none
      ∧ ∀ w, ¬ chipActive (handleSliderChange n (handleChipClick v s)) w := by
  refine ⟨rfl, fun w => ?_, rfl, rfl, fun w h => ?_⟩
  · simp [chipActive, handleChipClick, eq_comm]
  · simpa [chipActive, handleSliderChange] using h

theorem chip_and_slider_semantics_witness :
    (handleChipClick 10 initialState).compressionValue = 10
      ∧ (∀ w, chipActive (handleChipClick 10 initialState) w ↔ w = 10)
      ∧ (handleSliderChange 55 (handleChipClick 10 initialState)).compressionValue = 55
      ∧ (handleSliderChange 55 (handleChipClick 10 initialState)).selectedChip = none
      ∧ ∀ w, ¬ chipActive (handleSliderChange 55 (handleChipClick 10 initialState)) w :=
  chip_and_slider_semantics 10 55 initialState

/-- C10: a non-empty selection replaces the files, mints exactly one preview
URL per file (same length), and clears the result list; an empty selection
leaves the whole state unchanged. -/
theorem fileSelect_semantics (mkUrl : JFile → ℕ) (files : List JFile) (s : AppState) :
    (files ≠ [] →
      (handleFileSelect mkUrl files s).selectedFiles = files
        ∧ (handleFileSelect mkUrl files s).previewUrls = files.map mkUrl
        ∧ (handleFileSelect mkUrl files s).previewUrls.length = files.length
        ∧ (handleFileSelect mkUrl files s).compressedUrls = [])
    ∧ (files = [] → handleFileSelect mkUrl files s = s) := by
  constructor
  · intro h
    have hlen : files.length > 0 := List.length_pos.mpr h
    simp [handleFileSelect, hlen]
  · intro h
    simp [handleFileSelect, h]

/-- A small concrete file (50KB), under the 100KB skip threshold. -/
def fileSmall : JFile := ⟨"c.png".toList, 51200, 0, 400, 300⟩

theorem fileSelect_semantics_witness :
    (([fileSmall] : List JFile) ≠ []
      ∧ (handleFileSelect (fun _ => 0) [fileSmall] initialState).selectedFiles = [fileSmall]
      ∧ (handleFileSelect (fun _ => 0) [fileSmall] initialState).previewUrls
          = [fileSmall].map (fun _ => 0)
      ∧ (handleFileSelect (fun _ => 0) [fileSmall] initialState).previewUrls.length
          = [fileSmall].length
      ∧ (handleFileSelect (fun _ => 0) [fileSmall] initialState).compressedUrls = [])
    ∧ handleFileSelect (fun _ => 0) [] initialState = initialState := by
  have h := fileSelect_semantics (fun _ => 0) [fileSmall] initialState
  have h0 := fileSelect_semantics (fun _ => 0) [] initialState
  exact ⟨⟨by simp, h.1 (by simp)⟩, h0.2 rfl⟩

/-- C3: for a file under 100KB the `skipCompression` option is set, the
library passes the file through unchanged, the fallback keeps it, and the
result file is byte-identical to the input — for any strength and any
re-encode oracle. -/
theorem smallFile_passthrough (reencode : JFile → Options → Option JFile)
    (mkUrl : JFile → ℕ) (v : ℕ) (file : JFile) (h : file.size < 100 * 1024) :
    ∃ e, compressOneFile reencode mkUrl v file = some e ∧ e.file = file := by
  have hskip : (deriveOptions v file).skipCompression = true := by
    simp [deriveOptions, h]
  have hmain : compressOneFile reencode mkUrl v file
      = some { url := mkUrl file
               file := file
               originalName := file.name
               stats :=
                 { originalSize := toFixed 2 ((file.size : ℚ) / (1024 * 1024))
                   compressedSize := toFixed 2 ((file.size : ℚ) / (1024 * 1024))
                   compressionRatio :=
                     toFixed 1 (((file.size : ℚ) - (file.size : ℚ)) / (file.size : ℚ) * 100) } } := by
    simp [compressOneFile, imageCompression, hskip]
  exact ⟨_, hmain, rfl⟩

theorem smallFile_passthrough_witness :
    fileSmall.size < 100 * 1024
      ∧ ∃ e, compressOneFile (fun _ _ => none) (fun _ => 0) 33 fileSmall = some e
          ∧ e.file = fileSmall :=
  ⟨by decide, smallFile_passthrough (fun _ _ => none) (fun _ => 0) 33 fileSmall (by decide)⟩

/-! ## C1: the fallback-to-original guard (lines 128–135) -/

/-- A concrete 100KB input file. -/
def fileA : JFile := ⟨"a.jpg".toList, 102400, 0, 1000, 800⟩

/-- A re-encoded output with exactly the same size as `fileA` but different
bytes (different content tag). -/
def fileB : JFile := ⟨"a.jpg".toList, 102400, 1, 1000, 800⟩

/-- An oracle whose re-encoded output has the same size as the input but is
not byte-identical to it. -/
def reencodeSameSize : JFile → Options → Option JFile := fun _ _ => some fileB

/-- C1 counterexample: the re-encoded output `fileB` is NOT strictly smaller
than the input `fileA` (their sizes are equal), yet the code's guard
(`compressedFile.size > file.size`) does not fire, so the result file is the
re-encoded output, which is not byte-identical to the input. -/
theorem fallback_not_strictly_smaller_counterexample :
    imageCompression reencodeSameSize fileA (deriveOptions 10 fileA) = some fileB
      ∧ ¬ fileB.size < fileA.size
      ∧ (compressOneFile reencodeSameSize (fun _ => 0) 10 fileA).map ResultEntry.file
          = some fileB
      ∧ fileB ≠ fileA := by
  refine ⟨by decide, by decide, ?_, by decide⟩
  simp [compressOneFile, imageCompression, deriveOptions, reencodeSameSize, fileA, fileB]

/-- C1 (amended): the original is substituted only when the re-encoded output
is STRICTLY LARGER than the input; and for every image the result file is no
larger than the input, so the reported compressed size is at most the
reported original size. -/
theorem fallback_and_reported_size (reencode : JFile → Options → Option JFile)
    (mkUrl : JFile → ℕ) (v : ℕ) (file : JFile) :
    (∀ c, imageCompression reencode file (deriveOptions v file) = some c →
        c.size > file.size →
        (compressOneFile reencode mkUrl v file).map ResultEntry.file = some file)
      ∧ ∀ e, compressOneFile reencode mkUrl v file = some e →
          e.file.size ≤ file.size
            ∧ e.stats.compressedSize ≤ e.stats.originalSize := by
  constructor
  · intro c hc hbig
    simp [compressOneFile, hc, hbig]
  · intro e he
    rw [compressOneFile] at he
    rcases himg : imageCompression reencode file (deriveOptions v file) with _ | c
    · rw [himg] at he
      simp at he
    · rw [himg, Option.map_some'] at he
      have he2 := Option.some.inj he
      subst he2
      have hcf : (if c.size > file.size then file else c).size ≤ file.size := by
        by_cases hb : c.size > file.size <;> simp [hb]
        omega
      refine ⟨hcf, ?_⟩
      show toFixed 2 (((if c.size > file.size then file else c).size : ℚ) / (1024 * 1024))
          ≤ toFixed 2 ((file.size : ℚ) / (1024 * 1024))
      apply toFixed_mono
      have hq : (((if c.size > file.size then file else c).size : ℕ) : ℚ) ≤ (file.size : ℚ) := by
        exact_mod_cast hcf
      gcongr

/-- A strictly larger re-encoded output (200000 bytes) for the witness. -/
def fileLarger : JFile := ⟨"a.jpg".toList, 200000, 2, 1000, 800⟩

/-- An oracle whose re-encoded output is strictly larger than the input. -/
def reencodeLarger : JFile → Options → Option JFile := fun _ _ => some fileLarger

theorem fallback_and_reported_size_witness :
    (compressOneFile reencodeLarger (fun _ => 0) 10 fileA).map ResultEntry.file = some fileA
      ∧ ∃ e, compressOneFile reencodeLarger (fun _ => 0) 10 fileA = some e
          ∧ e.file.size ≤ fileA.size
          ∧ e.stats.compressedSize ≤ e.stats.originalSize := by
  have h := fallback_and_reported_size reencodeLarger (fun _ => 0) 10 fileA
  have h1 := h.1 fileLarger (by decide) (by decide)
  obtain ⟨e, he, _⟩ := Option.map_eq_some'.mp h1
  exact ⟨h1, e, he, h.2 e he⟩

/-! ## C5: the stats formulas and the rounding tolerance (lines 137–150) -/

/-- Evaluate `toFixed` by characterizing the rounded integer `z`. -/
theorem toFixed_eq_of {d : ℕ} {x q : ℚ} {z : ℤ}
    (h1 : (z : ℚ) ≤ x * 10 ^ d + 1 / 2) (h2 : x * 10 ^ d + 1 / 2 < z + 1)
    (hq : (z : ℚ) = q * 10 ^ d) : toFixed d x = q := by
  have hz : round (x * 10 ^ d) = z := by
    rw [round_eq]
    exact Int.floor_eq_iff.mpr ⟨h1, h2⟩
  have hp : (10 : ℚ) ^ d ≠ 0 := by positivity
  rw [toFixed, hz, hq, mul_div_assoc, div_self hp, mul_one]

/-- The spec's testable property: recompute the compression ratio from the
REPORTED (rounded) sizes. -/
def recomputedRatio (st : Stats) : ℚ :=
  (st.originalSize - st.compressedSize) / st.originalSize * 100

/-- A concrete 0.5MB input file. -/
def fileO : JFile := ⟨"b.jpg".toList, 524288, 0, 1000, 800⟩

/-- A concrete re-encoded output of 369500 bytes for `fileO`. -/
def fileR : JFile := ⟨"b.jpg".toList, 369500, 1, 1000, 800⟩

/-- An oracle producing `fileR`. -/
def reencodeToR : JFile → Options → Option JFile := fun _ _ => some fileR

/-- C5 counterexample: for a 524288-byte input re-encoded to 369500 bytes the
pipeline reports sizes 0.50MB / 0.35MB and ratio 29.5%, but the ratio
recomputed from the reported sizes is 30.0% — off by 0.5 percentage points,
beyond the claimed 0.1 tolerance. -/
theorem ratio_recompute_counterexample :
    compressOneFile reencodeToR (fun _ => 0) 20 fileO
        = some ⟨0, fileR, "b.jpg".toList, ⟨1 / 2, 7 / 20, 59 / 2⟩⟩
      ∧ recomputedRatio ⟨1 / 2, 7 / 20, 59 / 2⟩ = 30
      ∧ ¬ |(59 / 2 : ℚ) - recomputedRatio ⟨1 / 2, 7 / 20, 59 / 2⟩| ≤ 1 / 10 := by
  refine ⟨?_, by norm_num [recomputedRatio], by norm_num [recomputedRatio, abs_le]⟩
  simp only [compressOneFile, imageCompression, deriveOptions, reencodeToR, fileO, fileR]
  norm_num
  exact ⟨toFixed_eq_of (z := 50) (by norm_num) (by norm_num) (by norm_num),
    toFixed_eq_of (z := 35) (by norm_num) (by norm_num) (by norm_num),
    toFixed_eq_of (z := 295) (by norm_num) (by norm_num) (by norm_num)⟩

/-- C5 (amended): for every produced result the reported ratio is exactly
`(originalSize - finalSize) / originalSize * 100` rounded to one decimal and
the reported sizes are megabytes rounded to two decimals, and the displayed
ratio is within 0.05 percentage points of the exact ratio; the stronger
claim — that the ratio recomputed from the reported (rounded) sizes matches
the displayed ratio within 0.1 points — fails (see the counterexample). -/
theorem stats_formulas_and_rounding (reencode : JFile → Options → Option JFile)
    (mkUrl : JFile → ℕ) (v : ℕ) (file : JFile) (e : ResultEntry)
    (he : compressOneFile reencode mkUrl v file = some e) :
    e.stats.originalSize = toFixed 2 ((file.size : ℚ) / (1024 * 1024))
      ∧ e.stats.compressedSize = toFixed 2 ((e.file.size : ℚ) / (1024 * 1024))
      ∧ e.stats.compressionRatio
          = toFixed 1 (((file.size : ℚ) - (e.file.size : ℚ)) / (file.size : ℚ) * 100)
      ∧ |e.stats.compressionRatio
            - ((file.size : ℚ) - (e.file.size : ℚ)) / (file.size : ℚ) * 100| ≤ 1 / 20 := by
  rw [compressOneFile] at he
  rcases himg : imageCompression reencode file (deriveOptions v file) with _ | c
  · rw [himg] at he
    simp at he
  · rw [himg, Option.map_some'] at he
    have he2 := Option.some.inj he
    subst he2
    refine ⟨rfl, rfl, rfl, ?_⟩
    have h := abs_toFixed_sub_le 1
      (((file.size : ℚ) - ((if c.size > file.size then file else c).size : ℚ))
        / (file.size : ℚ) * 100)
    calc _ ≤ 1 / (2 * 10 ^ 1) := h
    _ ≤ (1 / 20 : ℚ) := by norm_num

theorem stats_formulas_and_rounding_witness :
    ∃ e, compressOneFile (fun _ _ => none) (fun _ => 0) 33 fileSmall = some e
      ∧ (e.stats.originalSize = toFixed 2 ((fileSmall.size : ℚ) / (1024 * 1024))
        ∧ e.stats.compressedSize = toFixed 2 ((e.file.size : ℚ) / (1024 * 1024))
        ∧ e.stats.compressionRatio
            = toFixed 1 (((fileSmall.size : ℚ) - (e.file.size : ℚ)) / (fileSmall.size : ℚ) * 100)
        ∧ |e.stats.compressionRatio
              - ((fileSmall.size : ℚ) - (e.file.size : ℚ)) / (fileSmall.size : ℚ) * 100|
            ≤ 1 / 20) := by
  have hs : (compressOneFile (fun _ _ => none) (fun _ => 0) 33 fileSmall).isSome = true := rfl
  obtain ⟨e, he⟩ := Option.isSome_iff_exists.mp hs
  exact ⟨e, he, stats_formulas_and_rounding (fun _ _ => none) (fun _ => 0) 33 fileSmall e he⟩

/-! ## Lemmas about the `Promise.all` model -/

/-- Any completion entry reported for index `i` carries the outcome of task
`i`: whatever the completion order, `collectAt` is either a rejection or the
task's own outcome. -/
theorem collectAt_eq_or {R : Type} (order : List ℕ) (tasks : List (Option R)) (i : ℕ) :
    collectAt order tasks i = none ∨ collectAt order tasks i = tasks.getD i none := by
  induction order with
  | nil => left; rfl
  | cons j rest ih =>
      by_cases hij : i = j
      · right
        subst hij
        simp [collectAt, completions, List.lookup]
      · rcases ih with h | h
        · left
          rw [← h]
          simp only [collectAt, completions, List.map_cons, List.lookup]
          rw [beq_eq_false_iff_ne.mpr hij]
        · right
          rw [← h]
          simp only [collectAt, completions, List.map_cons, List.lookup]
          rw [beq_eq_false_iff_ne.mpr hij]

/-- If index `i` actually completes (it occurs in the order), `collectAt`
returns exactly task `i`'s outcome. -/
theorem collectAt_of_mem {R : Type} {order : List ℕ} {i : ℕ}
    (tasks : List (Option R)) (hi : i ∈ order) :
    collectAt order tasks i = tasks.getD i none := by
  induction order with
  | nil => cases hi
  | cons j rest ih =>
      by_cases hij : i = j
      · subst hij
        simp [collectAt, completions, List.lookup]
      · have : i ∈ rest := by
          rcases List.mem_cons.mp hi with h | h
          · exact absurd h hij
          · exact h
        rw [← ih this]
        simp only [collectAt, completions, List.map_cons, List.lookup]
        rw [beq_eq_false_iff_ne.mpr hij]

/-- `seqOption` succeeds exactly on a list of successes, exposing them. -/
theorem seqOption_eq_some {R : Type} :
    ∀ {l : List (Option R)} {rs : List R}, seqOption l = some rs → l = rs.map some := by
  intro l
  induction l with
  | nil =>
      intro rs h
      simp only [seqOption, Option.some_inj] at h
      rw [← h]
      rfl
  | cons a rest ih =>
      intro rs h
      cases a with
      | none => simp [seqOption] at h
      | some r =>
          rw [seqOption] at h
          rcases hrest : seqOption rest with _ | rs2
          · rw [hrest] at h
            simp at h
          · rw [hrest, Option.map_some', Option.some_inj] at h
            rw [← h, List.map_cons, ih hrest]

/-- A single rejected task poisons the join. -/
theorem seqOption_of_mem_none {R : Type} :
    ∀ {l : List (Option R)}, none ∈ l → seqOption l = none := by
  intro l
  induction l with
  | nil => intro h; cases h
  | cons a rest ih =>
      intro h
      cases a with
      | none => rfl
      | some r =>
          have : none ∈ rest := by
            rcases List.mem_cons.mp h with h1 | h1
            · exact absurd h1.symm (by simp)
            · exact h1
          rw [seqOption, ih this, Option.map_none']

/-- If `Promise.all` settles successfully under ANY completion order, the
results are positionally aligned: entry `i` is exactly the (successful)
outcome of task `i`. -/
theorem promiseAll_eq_some {R : Type} {order : List ℕ} {tasks : List (Option R)}
    {rs : List R} (h : promiseAll order tasks = some rs) : rs.map some = tasks := by
  rw [promiseAll] at h
  have hl := seqOption_eq_some h
  have hlen : tasks.length = rs.length := by
    have := congrArg List.length hl
    simpa using this
  apply List.ext_getElem
  · simp [hlen]
  · intro i h1 h2
    have hi : i < tasks.length := h2
    have hr : i < rs.length := hlen ▸ hi
    have hx := congrArg (fun l => l[i]?) hl
    simp only [List.getElem?_map] at hx
    rw [List.getElem?_range hi, List.getElem?_eq_getElem hr] at hx
    simp only [Option.map_some'] at hx
    have hx2 := Option.some.inj hx
    rw [List.getElem_map]
    rcases collectAt_eq_or order tasks i with hc | hc
    · rw [hc] at hx2
      exact absurd hx2 (by simp)
    · rw [hc, List.getD_eq_getElem tasks none hi] at hx2
      exact hx2.symm

/-- If any single task is rejected, `Promise.all` is rejected, whatever the
completion order. -/
theorem promiseAll_eq_none_of_task {R : Type} {tasks : List (Option R)}
    (order : List ℕ) {i : ℕ} (hi : i < tasks.length)
    (hn : tasks.getD i none = none) : promiseAll order tasks = none := by
  rw [promiseAll]
  apply seqOption_of_mem_none
  have hc : collectAt order tasks i = none := by
    rcases collectAt_eq_or order tasks i with h | h
    · exact h
    · rw [h, hn]
  rw [← hc]
  exact List.mem_map.mpr ⟨i, List.mem_range.mpr hi, rfl⟩

/-- C7: on a non-empty selection, `handleCompress` always clears the running
flag (the `finally` clause), and if any single per-file pipeline fails the
whole batch fails: the result list is left unchanged and one error is
logged — for every completion order. -/
theorem batch_failure_semantics (reencode : JFile → Options → Option JFile)
    (mkUrl : JFile → ℕ) (order : List ℕ) (s : AppState)
    (hne : s.selectedFiles ≠ []) :
    (handleCompress reencode mkUrl order s).isCompressing = false
      ∧ ((∃ i, ∃ hi : i < s.selectedFiles.length,
            compressOneFile reencode mkUrl s.compressionValue
              (s.selectedFiles.get ⟨i, hi⟩) = none) →
          (handleCompress reencode mkUrl order s).compressedUrls = s.compressedUrls
            ∧ (handleCompress reencode mkUrl order s).errorLog = s.errorLog + 1) := by
  have h0 : ¬ s.selectedFiles.length = 0 := by
    simpa [List.length_eq_zero] using hne
  constructor
  · rcases hp : promiseAll order
        (s.selectedFiles.map (compressOneFile reencode mkUrl s.compressionValue))
      with _ | results <;>
    simp [handleCompress, h0, hp]
  · rintro ⟨i, hi, hfail⟩
    have hlen : i < (s.selectedFiles.map
        (compressOneFile reencode mkUrl s.compressionValue)).length := by
      simpa using hi
    have hgetD : (s.selectedFiles.map
        (compressOneFile reencode mkUrl s.compressionValue)).getD i none = none := by
      rw [List.getD_eq_getElem _ none hlen, List.getElem_map]
      simpa [List.get_eq_getElem] using hfail
    have hp := promiseAll_eq_none_of_task order hlen hgetD
    constructor <;> simp [handleCompress, h0, hp]

/-- A state holding one selected 100KB file, ready to compress. -/
def failState : AppState :=
  { initialState with selectedFiles := [fileA], previewUrls := [0] }

theorem batch_failure_semantics_witness :
    (handleCompress (fun _ _ => none) (fun _ => 0) [0] failState).isCompressing = false
      ∧ (handleCompress (fun _ _ => none) (fun _ => 0) [0] failState).compressedUrls
          = failState.compressedUrls
      ∧ (handleCompress (fun _ _ => none) (fun _ => 0) [0] failState).errorLog
          = failState.errorLog + 1 := by
  have h := batch_failure_semantics (fun _ _ => none) (fun _ => 0) [0] failState
    (by simp [failState])
  have hex : ∃ i, ∃ hi : i < failState.selectedFiles.length,
      compressOneFile (fun _ _ => none) (fun _ => 0) failState.compressionValue
        (failState.selectedFiles.get ⟨i, hi⟩) = none := by
    refine ⟨0, by simp [failState], ?_⟩
    rfl
  exact ⟨h.1, (h.2 hex).1, (h.2 hex).2⟩

/-- C6: in every reachable display state — under any interleaving of user
events and any batch completion order — the result list is either empty or
aligned with the selected files: same length, and entry `i` is the pipeline
output for input file `i` at some strength value. -/
theorem results_all_or_nothing_aligned (reencode : JFile → Options → Option JFile)
    (mkUrl : JFile → ℕ) (s : AppState) (hs : Reachable reencode mkUrl s) :
    s.compressedUrls = []
      ∨ ∃ v, s.compressedUrls.length = s.selectedFiles.length
          ∧ s.compressedUrls.map some
              = s.selectedFiles.map (compressOneFile reencode mkUrl v) := by
  induction hs with
  | init => exact Or.inl rfl
  | fileSelect files s hs ih =>
      by_cases h : files.length > 0
      · left
        simp [handleFileSelect, h]
      · rwa [handleFileSelect, if_neg h]
  | chipClick v s hs ih => exact ih
  | sliderChange v s hs ih => exact ih
  | compressPending s hs ih =>
      by_cases h : s.selectedFiles.length = 0
      · rwa [startCompress, if_pos h]
      · rw [startCompress, if_neg h]
        exact ih
  | compressSettle order s hs ih =>
      by_cases h : s.selectedFiles.length = 0
      · rwa [handleCompress, if_pos h]
      · rw [handleCompress, if_neg h]
        rcases hp : promiseAll order
            (s.selectedFiles.map (compressOneFile reencode mkUrl s.compressionValue))
          with _ | results
        · simp only [hp]
          simpa using ih
        · simp only [hp]
          right
          refine ⟨s.compressionValue, ?_, ?_⟩
          · have hl := congrArg List.length (promiseAll_eq_some hp)
            simpa using hl
          · simpa using promiseAll_eq_some hp

theorem results_all_or_nothing_aligned_witness :
    (handleCompress (fun f _ => some f) (fun _ => 0) [0]
        (handleFileSelect (fun _ => 0) [fileSmall] initialState)).compressedUrls = []
      ∨ ∃ v, (handleCompress (fun f _ => some f) (fun _ => 0) [0]
              (handleFileSelect (fun _ => 0) [fileSmall] initialState)).compressedUrls.length
            = (handleCompress (fun f _ => some f) (fun _ => 0) [0]
              (handleFileSelect (fun _ => 0) [fileSmall] initialState)).selectedFiles.length
          ∧ (handleCompress (fun f _ => some f) (fun _ => 0) [0]
              (handleFileSelect (fun _ => 0) [fileSmall] initialState)).compressedUrls.map some
            = (handleCompress (fun f _ => some f) (fun _ => 0) [0]
              (handleFileSelect (fun _ => 0) [fileSmall] initialState)).selectedFiles.map
                (compressOneFile (fun f _ => some f) (fun _ => 0) v) :=
  results_all_or_nothing_aligned (fun f _ => some f) (fun _ => 0) _
    (Reachable.compressSettle [0] _
      (Reachable.fileSelect [fileSmall] _ Reachable.init))

/-! ## C9: the suggested download file name -/

/-- The regex condition of line 277: the name ends in a dot followed by a
non-empty run of characters none of which is a dot or a slash. -/
def hasExtension (name : List Char) : Bool :=
  let seg := name.reverse.takeWhile fun c => c != '.' && c != '/'
  seg.length != 0 && ((name.reverse.drop seg.length).head? == some '.')

/-- The spec's reading of the download name: the original base name with the
fixed suffix appended, then the original extension reapplied — and nothing
reapplied when the name has no extension. -/
def specDownloadName (name : List Char) : List Char :=
  if hasExtension name then
    stripExtRegex name ++ "_jelly_image_compress.".toList ++ lastDotSegment name
  else
    name ++ "_jelly_image_compress".toList

/-- `takeWhile` swallows a prefix that satisfies the predicate and stops at
the first failing element. -/
theorem takeWhile_append_of_forall {α : Type} {p : α → Bool} {l1 : List α}
    (h : ∀ c ∈ l1, p c = true) {x : α} (hx : p x = false) (l2 : List α) :
    (l1 ++ x :: l2).takeWhile p = l1 := by
  induction l1 with
  | nil => simp [List.takeWhile_cons, hx]
  | cons a t ih =>
      have ha : p a = true := h a (by simp)
      have ht : ∀ c ∈ t, p c = true := fun c hc => h c (by simp [hc])
      simp [List.takeWhile_cons, ha, ih ht]

/-- Dropping one element past the left part of an append. -/
theorem drop_append_cons {α : Type} (l1 : List α) (x : α) (l2 : List α) :
    (l1 ++ x :: l2).drop (l1.length + 1) = l2 := by
  rw [show l1 ++ x :: l2 = (l1 ++ [x]) ++ l2 by simp,
    show l1.length + 1 = (l1 ++ [x]).length by simp]
  exact List.drop_left _ _

/-- C9 counterexample: for the extensionless name `photo` the code produces
`photo_jelly_image_compress.photo` — the whole name is re-appended after the
suffix — rather than the base name with the suffix and no extension
reapplied. -/
theorem downloadName_counterexample :
    downloadName "photo".toList = "photo_jelly_image_compress.photo".toList
      ∧ specDownloadName "photo".toList = "photo_jelly_image_compress".toList
      ∧ downloadName "photo".toList ≠ specDownloadName "photo".toList := by
  refine ⟨by decide, by decide, by decide⟩

/-- C9 (amended): for every file name that HAS an extension — a final dot
followed by a non-empty run of characters other than `.` and `/` — the
suggested download name is the base name, the fixed suffix
`_jelly_image_compress`, a dot, and the original extension. -/
theorem downloadName_of_extension (base ext : List Char)
    (hne : ext ≠ []) (hchars : ∀ c ∈ ext, c ≠ '.' ∧ c ≠ '/') :
    downloadName (base ++ '.' :: ext)
      = base ++ "_jelly_image_compress.".toList ++ ext := by
  have hrev : (base ++ '.' :: ext).reverse = ext.reverse ++ '.' :: base.reverse := by
    simp
  have hp1 : ∀ c ∈ ext.reverse, (c != '.' && c != '/') = true := by
    intro c hc
    have h := hchars c (List.mem_reverse.mp hc)
    simp [h.1, h.2]
  have hpdot : ((('.' : Char) != '.') && (('.' : Char) != '/')) = false := by decide
  have hp2 : ∀ c ∈ ext.reverse, (c != '.') = true := by
    intro c hc
    have h := hchars c (List.mem_reverse.mp hc)
    simp [h.1]
  have hlast : lastDotSegment (base ++ '.' :: ext) = ext := by
    rw [lastDotSegment, hrev,
      takeWhile_append_of_forall hp2 (by decide) base.reverse, List.reverse_reverse]
  have hstrip : stripExtRegex (base ++ '.' :: ext) = base := by
    simp only [stripExtRegex]
    rw [hrev, takeWhile_append_of_forall hp1 hpdot base.reverse]
    rw [List.drop_left]
    rw [if_pos ?_]
    · rw [drop_append_cons, List.reverse_reverse]
    · refine ⟨?_, rfl⟩
      simpa [List.length_eq_zero] using hne
  rw [downloadName, hstrip, hlast]

theorem downloadName_of_extension_witness :
    ("jpg".toList ≠ ([] : List Char))
      ∧ downloadName ("photo".toList ++ '.' :: "jpg".toList)
          = "photo".toList ++ "_jelly_image_compress.".toList ++ "jpg".toList :=
  ⟨by decide,
    downloadName_of_extension "photo".toList "jpg".toList (by decide) (by decide)⟩
